import Mathlib

/-!
Shallow embedding of the tartufo scanning engine (`tartufo/scanner.py`) and of
the git-history chunk producer, together with proofs of the specified
properties.  Python strings are modelled as Lean `String`s (with character
slicing done through `String.data`), Python floats as exact `ℚ`/`ℝ` values,
regular-expression objects as abstract boolean matchers, and the stateful
scan-object as an explicit state record threaded through the `scan` function.
-/

namespace Tartufo

/-- Kind of a finding, mirroring `types.IssueType` (`Entropy` / `RegEx`). -/
inductive IssueType
  | Entropy
  | RegEx
deriving DecidableEq

/-- A unit of scannable text plus its file path and metadata
(`types.Chunk`).  The metadata mapping is modelled as an association list. -/
structure Chunk where
  contents : String
  file_path : String
  metadata : List (String × String)
deriving DecidableEq

/-- A finding (`Issue` in `scanner.py`): the kind of scan that produced it, the
matched substring, the chunk it came from, and an optional detail (the rule
name for regex findings), which `Issue.__init__` initializes to `None`. -/
structure Issue where
  issue_type : IssueType
  matched_string : String
  chunk : Chunk
  issue_detail : Option String := none
deriving DecidableEq

/-- Rule scope, mirroring `types.Scope` (`word` / `line`). -/
inductive Scope
  | Word
  | Line
deriving DecidableEq

/-- Rule match type, mirroring `types.MatchType` (`match` / `search`). -/
inductive MatchType
  | Match
  | Search
deriving DecidableEq

/-- A compiled regular expression, abstracted to its observable behaviour: an
anchored match test (`re.match`), a search test (`re.search`) and the list of
all non-overlapping matched strings (`re.findall`).  The regex engine itself is
an external collaborator of the scanner. -/
structure Regex where
  rmatch : String → Bool
  rsearch : String → Bool
  findall : String → List String

/-- A scanning rule (`types.Rule`): name, content pattern, optional path
pattern, match type and scope. -/
structure Rule where
  name : Option String
  pattern : Option Regex
  path_pattern : Option Regex
  re_match_type : MatchType
  re_match_scope : Scope

/-- The configuration surface consumed by the engine
(`types.GlobalOptions`, restricted to the fields `scanner.py` reads).
`entropy_sensitivity` is the 0-100 integer sensitivity (`None` when unset);
the two deprecated absolute entropy scores are optional numbers whose Python
truthiness (`None` and `0` are falsy) gates the backwards-compatibility
branches. -/
structure GlobalOptions where
  entropy : Bool
  regex : Bool
  entropy_sensitivity : Option Nat
  hex_entropy_score : Option ℚ
  b64_entropy_score : Option ℚ
  scan_filenames : Bool

/-- Python truthiness of an optional numeric option: `None` and `0` are falsy,
every other number is truthy. -/
def optionTruthy (o : Option ℚ) : Bool :=
  match o with
  | none => false
  | some v => v != 0

/-- The resolved, effectively-immutable configuration of a `ScannerBase`
instance: the global options plus the lazily-initialized (then never mutated)
filter and rule fields (`included_paths`, `excluded_paths`,
`excluded_entropy`, `rules_regexes`, `excluded_signatures`), each model the
value the corresponding property settles on.  Path patterns are abstracted to
boolean matchers (`p.match(file_path)`).  `gen_signature` models the external
`util.generate_signature`, which per the spec is a pure function of the
matched string and the file path. -/
structure Scanner where
  global_options : GlobalOptions
  included_paths : List (String → Bool)
  excluded_paths : List (String → Bool)
  excluded_entropy : List Rule
  rules_regexes : List Rule
  excluded_signatures : List String
  gen_signature : String → String → String

/-- `ScannerBase.compute_scaled_entropy_limit`: the configured sensitivity
(default 75 when unset) divided by 100 and scaled by the encoding family's
bits-per-character rate. -/
def compute_scaled_entropy_limit (s : Scanner) (maximum_bitrate : ℚ) : ℚ :=
  let sensitivity : Nat :=
    match s.global_options.entropy_sensitivity with
    | none => 75
    | some v => v
  (sensitivity : ℚ) / 100 * maximum_bitrate

/-- `ScannerBase.hex_entropy_limit`: the deprecated absolute score when it is
truthy, otherwise the sensitivity-scaled limit at 4 bits per character. -/
def hex_entropy_limit (s : Scanner) : ℚ :=
  if optionTruthy s.global_options.hex_entropy_score then
    s.global_options.hex_entropy_score.getD 0
  else
    compute_scaled_entropy_limit s 4

/-- `ScannerBase.b64_entropy_limit`: the deprecated absolute score when it is
truthy, otherwise the sensitivity-scaled limit at 6 bits per character. -/
def b64_entropy_limit (s : Scanner) : ℚ :=
  if optionTruthy s.global_options.b64_entropy_score then
    s.global_options.b64_entropy_score.getD 0
  else
    compute_scaled_entropy_limit s 6

/-- `ScannerBase.should_scan`: a path passes if (when inclusion patterns are
configured) it matches at least one of them, and (when exclusion patterns are
configured) it matches none of them. -/
def should_scan (s : Scanner) (file_path : String) : Bool :=
  if !s.included_paths.isEmpty && !s.included_paths.any (fun p => p file_path) then
    false
  else if !s.excluded_paths.isEmpty && s.excluded_paths.any (fun p => p file_path) then
    false
  else
    true

/-- `ScannerBase.signature_is_excluded`: true when the raw blob itself or its
generated signature appears in the excluded-signatures configuration. -/
def signature_is_excluded (s : Scanner) (blob : String) (file_path : String) : Bool :=
  s.excluded_signatures.contains blob
    || s.excluded_signatures.contains (s.gen_signature blob file_path)

/-- `ScannerBase.rule_matches`: select the scope string (the matched string
for word scope, the containing line for line scope), then apply the rule's
content pattern and, when present, its path pattern, with match or search
semantics per the rule's match type.  A missing content pattern leaves the
initial `match = False`. -/
def rule_matches (rule : Rule) (string : String) (line : String) (path : String) : Bool :=
  let scope : String :=
    match rule.re_match_scope with
    | Scope.Word => string
    | Scope.Line => line
  match rule.re_match_type with
  | MatchType.Match =>
    let m := match rule.pattern with
      | some p => p.rmatch scope
      | none => false
    (match rule.path_pattern with
      | some pp => m && pp.rmatch path
      | none => m)
  | MatchType.Search =>
    let m := match rule.pattern with
      | some p => p.rsearch scope
      | none => false
    (match rule.path_pattern with
      | some pp => m && pp.rsearch path
      | none => m)

/-- `ScannerBase.entropy_string_is_excluded`: true when the entropy-exclusion
rule list is non-empty and some rule matches the (string, line, path)
triple. -/
def entropy_string_is_excluded (s : Scanner) (string : String) (line : String)
    (path : String) : Bool :=
  !s.excluded_entropy.isEmpty
    && s.excluded_entropy.any (fun p => rule_matches p string line path)

/-- Shannon entropy of a list of characters, the body of
`ScannerBase.calculate_entropy`: zero for the empty input, otherwise the sum
over the distinct characters of `-p * log2 p` where `p` is the character's
relative frequency.  Python's floats are modelled as real numbers. -/
noncomputable def entropy_of (l : List Char) : ℝ :=
  if l = [] then 0
  else
    ∑ c in l.toFinset,
      -((l.count c : ℝ) / (l.length : ℝ)) * Real.logb 2 ((l.count c : ℝ) / (l.length : ℝ))

/-- `ScannerBase.calculate_entropy` on a Python string. -/
noncomputable def calculate_entropy (data : String) : ℝ :=
  entropy_of data.data

/-- `ScannerBase.evaluate_entropy_string`: skip the candidate when its literal
value or signature is excluded; otherwise compute its entropy and flag an
`Entropy` issue when the score strictly exceeds the limit and no
entropy-exclusion rule matches.  The generator yields at most one issue. -/
noncomputable def evaluate_entropy_string (s : Scanner) (chunk : Chunk) (line : String)
    (string : String) (min_entropy_score : ℝ) : List Issue :=
  if signature_is_excluded s string chunk.file_path then []
  else if calculate_entropy string > min_entropy_score then
    if entropy_string_is_excluded s string line chunk.file_path then []
    else [{ issue_type := IssueType.Entropy, matched_string := string, chunk := chunk }]
  else []

/-- Modelled from the spec: `util.find_strings_by_regex` (not part of
`scanner.py`), which extracts the candidate strings of one encoding family
from a word; per the spec these are the maximal substrings of the word all of
whose characters belong to the family's alphabet. -/
def find_strings_by_regex (word : String) (alphabet : Char → Bool) : List String :=
  (maximalRuns alphabet word.data []).map fun run => String.mk run
where
  /-- Accumulating pass splitting a character list into its maximal runs of
  alphabet characters (`acc` holds the current run, reversed). -/
  maximalRuns (p : Char → Bool) : List Char → List Char → List (List Char)
    | [], acc => if acc.isEmpty then [] else [acc.reverse]
    | c :: cs, acc =>
      if p c then maximalRuns p cs (c :: acc)
      else if acc.isEmpty then maximalRuns p cs []
      else acc.reverse :: maximalRuns p cs []

/-- The `BASE64_REGEX` character class `[A-Z0-9=+/_-]` with `IGNORECASE`. -/
def isBase64Char (c : Char) : Bool :=
  c.isAlpha || c.isDigit || c == '=' || c == '+' || c == '/' || c == '_' || c == '-'

/-- The `HEX_REGEX` character class `[0-9A-F]` with `IGNORECASE`. -/
def isHexChar (c : Char) : Bool :=
  c.isDigit || ('A' ≤ c && c ≤ 'F') || ('a' ≤ c && c ≤ 'f')

/-- Python `str.split()` with no argument: split on whitespace runs, dropping
empty pieces. -/
def pySplitWhitespace (line : String) : List String :=
  (line.split fun c => c.isWhitespace).filter fun w => !w.isEmpty

/-- `ScannerBase.scan_entropy`: for each line of the chunk and each
whitespace-delimited word, evaluate the base64-alphabet candidates against the
base64 limit and the hex-alphabet candidates against the hex limit. -/
noncomputable def scan_entropy (s : Scanner) (chunk : Chunk) : List Issue :=
  (chunk.contents.splitOn "\n").flatMap fun line =>
    (pySplitWhitespace line).flatMap fun word =>
      ((find_strings_by_regex word isBase64Char).flatMap fun string =>
        evaluate_entropy_string s chunk line string ((b64_entropy_limit s : ℚ) : ℝ))
      ++ ((find_strings_by_regex word isHexChar).flatMap fun string =>
        evaluate_entropy_string s chunk line string ((hex_entropy_limit s : ℚ) : ℝ))

/-- `ScannerBase.scan_regex`: for every rule whose path pattern is absent or
matches the chunk's file path, every `findall` match of the content pattern
that is not signature-excluded becomes a `RegEx` issue carrying the rule name.
Rules supplied by the resolver always carry a content pattern; a rule without
one contributes no matches. -/
def scan_regex (s : Scanner) (chunk : Chunk) : List Issue :=
  s.rules_regexes.flatMap fun rule =>
    let path_ok :=
      match rule.path_pattern with
      | none => true
      | some pp => pp.rmatch chunk.file_path
    if path_ok then
      (match rule.pattern with
        | none => []
        | some p => p.findall chunk.contents).filterMap fun m =>
          if signature_is_excluded s m chunk.file_path then none
          else some { issue_type := IssueType.RegEx, matched_string := m,
                      chunk := chunk, issue_detail := rule.name }
    else []

/-- The issues one chunk contributes inside `ScannerBase.scan`'s loop: regex
issues first (when regex scanning is on and rules exist), then entropy
issues (when entropy scanning is on). -/
noncomputable def chunk_issues (s : Scanner) (chunk : Chunk) : List Issue :=
  (if s.global_options.regex && !s.rules_regexes.isEmpty then scan_regex s chunk else [])
    ++ (if s.global_options.entropy then scan_entropy s chunk else [])

/-- The configuration errors `ScannerBase.scan` can raise
(`types.ConfigException` with the corresponding message). -/
inductive ConfigError
  | noAnalysisRequested
  | noRegexesFound
deriving DecidableEq

/-- The mutable state of a scanner instance: the cached issue list
(`_issues`), the completion flag (`_completed`), and an instrumentation
counter recording how many times the chunk producer has been consumed. -/
structure EngineState where
  _issues : List Issue
  _completed : Bool
  producer_reads : Nat
deriving DecidableEq

/-- `ScannerBase.scan`, run to completion: replay the cached issues when the
scan has already completed; otherwise validate the configuration, consume the
chunk producer once, collect regex-then-entropy issues per chunk, cache them
and set the completed flag.  The result is the yielded issue sequence (or the
raised configuration error) together with the new state. -/
noncomputable def scan (s : Scanner) (chunks : List Chunk) (st : EngineState) :
    Except ConfigError (List Issue) × EngineState :=
  if st._completed then
    (Except.ok st._issues, st)
  else if !(s.global_options.entropy || s.global_options.regex) then
    (Except.error ConfigError.noAnalysisRequested, st)
  else if s.global_options.regex && s.rules_regexes.isEmpty then
    (Except.error ConfigError.noRegexesFound, st)
  else
    let issues := chunks.flatMap (chunk_issues s)
    (Except.ok issues,
      { _issues := issues, _completed := true, producer_reads := st.producer_reads + 1 })

/-! ### Git chunk production (`GitScanner` / `GitRepoScanner`) -/

/-- One side of a `pygit2.DiffDelta` (only the path is consulted). -/
structure DiffFile where
  path : String
deriving DecidableEq

/-- A `pygit2.DiffDelta`: the two file sides, the binary flag, and whether the
delta status is `GIT_DELTA_DELETED`. -/
structure DiffDelta where
  new_file : DiffFile
  old_file : DiffFile
  is_binary : Bool
  is_deleted : Bool
deriving DecidableEq

/-- A `pygit2.Patch`: its delta and its unified-diff text. -/
structure Patch where
  delta : DiffDelta
  text : String
deriving DecidableEq

/-- First index at which `needle` occurs as a contiguous sublist of `hay`
(Python `str.index`, as an `Option`). -/
def findFrom (needle : List Char) : List Char → Option Nat
  | [] => if needle.isEmpty then some 0 else none
  | c :: t =>
    if needle.isPrefixOf (c :: t) then some 0
    else (findFrom needle t).map (fun i => i + 1)

/-- The header-end marker `"\n+++"` searched for by `header_length`. -/
def diffMarker : List Char :=
  '\n' :: '+' :: '+' :: '+' :: []

/-- `GitScanner.header_length`: the length of the unified-diff header, i.e.
one past the first newline that follows the first occurrence of `"\n+++"`;
when either lookup fails (a pure-header diff) the whole text is header. -/
def header_length (diff : String) : Nat :=
  match findFrom diffMarker diff.data with
  | none => diff.data.length
  | some b =>
    match findFrom ('\n' :: []) (diff.data.drop (b + 4)) with
    | none => diff.data.length
    | some j => (b + 4 + j) + 1

/-- Character-slice `text[n:]`, the Python slicing used to strip the diff
header. -/
def strDrop (text : String) (n : Nat) : String :=
  String.mk (text.data.drop n)

/-- `GitScanner._iter_diff_index`: for each patch of a diff, resolve the file
path (new side, else old side), skip binary and deleted files, strip the diff
header unless filenames are being scanned, and yield the (text, path) pairs
whose path passes `should_scan`. -/
def iter_diff_index (s : Scanner) (diff : List Patch) : List (String × String) :=
  diff.flatMap fun patch =>
    let file_path :=
      if patch.delta.new_file.path != "" then patch.delta.new_file.path
      else patch.delta.old_file.path
    if patch.delta.is_binary then []
    else if patch.delta.is_deleted then []
    else
      let printable_diff := patch.text
      let printable_diff :=
        if !s.global_options.scan_filenames then
          strDrop printable_diff (header_length printable_diff)
        else printable_diff
      if should_scan s file_path then [(printable_diff, file_path)] else []

/-- A commit as consumed by `GitRepoScanner.chunks`: its id (hex string) and
its first parent's id, `none` when `curr_commit.parents[0]` raises (no parents,
or parents unavailable locally). -/
structure Commit where
  id : String
  first_parent : Option String
deriving DecidableEq

/-- One branch to be scanned: its name and the commit list produced by walking
it in topological order (children before parents). -/
structure GitBranch where
  name : String
  commits : List Commit
deriving DecidableEq

/-- The repository surface `GitRepoScanner.chunks` consumes: the resolved
branches (each with its walk), the diff between a parent and a child commit
(`repo.diff(prev, curr)`), and the diff of a commit's tree against the empty
tree (`tree.diff_to_tree(swap=True)`). -/
structure GitRepo where
  branches : List GitBranch
  diff : String → String → List Patch
  tree_diff : String → List Patch

/-- Modelled from the spec: `util.extract_commit_metadata` (not part of
`scanner.py`), which builds the chunk metadata mapping from the commit and the
branch name (commit id, branch, and similar fields). -/
def extract_commit_metadata (c : Commit) (branch_name : String) : List (String × String) :=
  [("commit_hash", c.id), ("branch", branch_name)]

/-- The state threaded through `GitRepoScanner.chunks`: the set of
already-searched diff digests (as a list, newest first), the chunks yielded so
far, and — as instrumentation for the statements below — the ordered
(parent id, commit id) pairs whose diffs passed deduplication. -/
structure WalkState where
  already_searched : List String
  chunks : List Chunk
  processed : List (String × String)

/-- The digest a (parent id, commit id) pair is deduplicated under:
`digest` models `hashlib.md5(...).digest()` applied to the concatenation
`str(prev_commit) + str(curr_commit)`. -/
def dgOf (digest : String → String) (pr : String × String) : String :=
  digest (pr.1 ++ pr.2)

/-- The body of the per-commit loop of `GitRepoScanner.chunks`: skip commits
without an available first parent; compute the parent diff and its digest;
skip already-searched digests; otherwise record the digest and yield the
chunks of the diff with the commit's metadata. -/
def stepCommit (s : Scanner) (repo : GitRepo) (digest : String → String)
    (branch_name : String) (st : WalkState) (curr : Commit) : WalkState :=
  match curr.first_parent with
  | none => st
  | some prev =>
    let d := repo.diff prev curr.id
    let h := dgOf digest (prev, curr.id)
    if st.already_searched.contains h then st
    else
      { already_searched := h :: st.already_searched
        chunks := st.chunks ++ (iter_diff_index s d).map fun bf =>
          { contents := bf.1, file_path := bf.2
            metadata := extract_commit_metadata curr branch_name }
        processed := st.processed ++ [(prev, curr.id)] }

/-- One branch iteration of `GitRepoScanner.chunks`: run the per-commit loop
over the branch's walk, then — when the walk was non-empty — yield the chunks
of the terminal commit's tree diffed against the empty tree (`curr_commit`
holds the last walked commit after the loop). -/
def processBranch (s : Scanner) (repo : GitRepo) (digest : String → String)
    (st : WalkState) (br : GitBranch) : WalkState :=
  let st' := br.commits.foldl (stepCommit s repo digest br.name) st
  match br.commits.getLast? with
  | none => st'
  | some curr =>
    { st' with
        chunks := st'.chunks ++ (iter_diff_index s (repo.tree_diff curr.id)).map fun bf =>
          { contents := bf.1, file_path := bf.2
            metadata := extract_commit_metadata curr br.name } }

/-- The final walk state of `GitRepoScanner.chunks` over all branches. -/
def gitWalk (s : Scanner) (repo : GitRepo) (digest : String → String) : WalkState :=
  repo.branches.foldl (processBranch s repo digest)
    { already_searched := [], chunks := [], processed := [] }

/-- The chunk sequence `GitRepoScanner.chunks` produces. -/
def gitChunks (s : Scanner) (repo : GitRepo) (digest : String → String) : List Chunk :=
  (gitWalk s repo digest).chunks

/-- The ordered (parent id, commit id) pairs whose diffs were actually
processed (passed deduplication), in order. -/
def processedPairs (s : Scanner) (repo : GitRepo) (digest : String → String) :
    List (String × String) :=
  (gitWalk s repo digest).processed

/-- The (parent id, commit id) pairs a list of walked commits contributes
(commits with an available first parent only), in walk order. -/
def commitPairs (commits : List Commit) : List (String × String) :=
  commits.filterMap fun c => c.first_parent.map fun p => (p, c.id)

/-- The (parent id, commit id) pairs the walk encounters on one branch. -/
def branchPairs (br : GitBranch) : List (String × String) :=
  commitPairs br.commits

/-- All (parent id, commit id) pairs encountered across all scanned
branches, in encounter order. -/
def encounteredPairs (repo : GitRepo) : List (String × String) :=
  repo.branches.flatMap branchPairs

/-- Reference recursion for digest-based deduplication: process the event list
in order, skipping every pair whose digest is already in `seen` and otherwise
keeping the pair and recording its digest. -/
def dedupProcess (digest : String → String) :
    List (String × String) → List String → List (String × String)
  | [], _ => []
  | pr :: rest, seen =>
    if seen.contains (dgOf digest pr) then dedupProcess digest rest seen
    else pr :: dedupProcess digest rest (dgOf digest pr :: seen)

/-! ### Sample configurations used to instantiate the theorems below -/

/-- A regex matching the fixed AWS-style token of the spec's example
scenario. -/
def sampleRegex : Regex :=
  { rmatch := fun _ => false
    rsearch := fun _ => false
    findall := fun c => if c = "token = AKIAABCD" then ["AKIAABCD"] else [] }

/-- A named rule wrapping `sampleRegex`, with no path pattern. -/
def sampleRule : Rule :=
  { name := some "aws_key", pattern := some sampleRegex, path_pattern := none
    re_match_type := MatchType.Search, re_match_scope := Scope.Word }

/-- Options requesting only regex scanning, everything else unset. -/
def regexOnlyOptions : GlobalOptions :=
  { entropy := false, regex := true, entropy_sensitivity := none
    hex_entropy_score := none, b64_entropy_score := none, scan_filenames := false }

/-- A scanner configured with the single `sampleRule` and no filters. -/
def regexOnlyScanner : Scanner :=
  { global_options := regexOnlyOptions, included_paths := [], excluded_paths := []
    excluded_entropy := [], rules_regexes := [sampleRule], excluded_signatures := []
    gen_signature := fun _ _ => "" }

/-- A scanner requesting neither entropy nor regex scanning. -/
def noDetectorScanner : Scanner :=
  { regexOnlyScanner with global_options := { regexOnlyOptions with regex := false } }

/-- A scanner requesting regex scanning with an empty rule set. -/
def emptyRulesScanner : Scanner :=
  { regexOnlyScanner with rules_regexes := [] }

/-- A scanner whose deprecated absolute entropy scores are explicitly `0`. -/
def zeroOverrideScanner : Scanner :=
  { regexOnlyScanner with
      global_options :=
        { regexOnlyOptions with hex_entropy_score := some 0, b64_entropy_score := some 0 } }

/-- The chunk of the spec's regex example scenario. -/
def sampleChunk : Chunk :=
  { contents := "token = AKIAABCD", file_path := "f.txt", metadata := [] }

/-- A fresh engine state: no cached issues, not completed, producer unread. -/
def freshState : EngineState :=
  { _issues := [], _completed := false, producer_reads := 0 }

/-- A scanner like `regexOnlyScanner` but with filename scanning enabled, so
diff texts are passed through unstripped. -/
def treeScanner : Scanner :=
  { regexOnlyScanner with
      global_options := { regexOnlyOptions with scan_filenames := true } }

/-- A root commit with no parent. -/
def rootCommit : Commit :=
  { id := "cc", first_parent := none }

/-- A textual, non-deleted patch with identical old/new paths. -/
def rootPatch : Patch :=
  { delta := { new_file := { path := "f" }, old_file := { path := "f" }
               is_binary := false, is_deleted := false }
    text := "secret stuff" }

/-- A repository with a single branch ending at `rootCommit`. -/
def rootRepo : GitRepo :=
  { branches := [{ name := "main", commits := [rootCommit] }]
    diff := fun _ _ => [], tree_diff := fun _ => [rootPatch] }

/-- A repository with two branches both ending at the same `rootCommit`. -/
def sharedRootRepo : GitRepo :=
  { branches := [{ name := "b1", commits := [rootCommit] },
                 { name := "b2", commits := [rootCommit] }]
    diff := fun _ _ => [], tree_diff := fun _ => [rootPatch] }

/-- A commit whose first parent is available. -/
def childCommit : Commit :=
  { id := "bb", first_parent := some "aa" }

/-- A repository where the same parent-to-child diff is reachable from two
branches. -/
def dedupRepo : GitRepo :=
  { branches := [{ name := "b1", commits := [childCommit] },
                 { name := "b2", commits := [childCommit] }]
    diff := fun _ _ => [rootPatch], tree_diff := fun _ => [] }

/-- A pure-header patch: its text contains no `"\n+++"` marker (a
100%-similarity rename). -/
def pureHeaderPatch : Patch :=
  { delta := { new_file := { path := "a.txt" }, old_file := { path := "a.txt" }
               is_binary := false, is_deleted := false }
    text := "similarity index 100%" }

end Tartufo

namespace Tartufo

/-! ## C2: `should_scan` filtering precedence -/

/-- Claim C2: `should_scan` returns `true` exactly when the inclusion list is
empty or matched at least once, and the exclusion list is empty or matched by
no pattern; in particular a path matched by both lists, or by neither when
inclusions exist, or only by exclusions, is rejected. -/
theorem should_scan_spec (s : Scanner) (path : String) :
    should_scan s path = true ↔
      ((s.included_paths = [] ∨ ∃ p ∈ s.included_paths, p path = true) ∧
       (s.excluded_paths = [] ∨ ∀ p ∈ s.excluded_paths, p path = false)) := by
  have hb : should_scan s path =
      ((s.included_paths.isEmpty || s.included_paths.any fun p => p path)
        && (s.excluded_paths.isEmpty || !(s.excluded_paths.any fun p => p path))) := by
    unfold should_scan
    cases h1 : s.included_paths.isEmpty <;>
      cases h2 : s.included_paths.any (fun p => p path) <;>
        cases h3 : s.excluded_paths.isEmpty <;>
          cases h4 : s.excluded_paths.any (fun p => p path) <;>
            simp [h1, h2, h3, h4]
  rw [hb]
  simp only [Bool.and_eq_true, Bool.or_eq_true, List.isEmpty_iff, List.any_eq_true,
    Bool.not_eq_true', List.any_eq_false, Bool.not_eq_true]

/-- Witness for C2 at a concrete scanner and path. -/
theorem should_scan_spec_witness :
    should_scan regexOnlyScanner "f.txt" = true ↔
      ((regexOnlyScanner.included_paths = [] ∨
          ∃ p ∈ regexOnlyScanner.included_paths, p "f.txt" = true) ∧
       (regexOnlyScanner.excluded_paths = [] ∨
          ∀ p ∈ regexOnlyScanner.excluded_paths, p "f.txt" = false)) :=
  should_scan_spec regexOnlyScanner "f.txt"

/-! ## C5: sensitivity-scaled entropy limits -/

/-- Claim C5: when the deprecated absolute overrides are not in effect (their
Python truthiness is false), the hex limit is `sensitivity/100 * 4` and the
base64 limit is `sensitivity/100 * 6`, with sensitivity defaulting to 75 when
unset, so the default limits are 3 bits/char (hex) and 4.5 bits/char
(base64). -/
theorem entropy_limit_scaling (s : Scanner)
    (hhex : optionTruthy s.global_options.hex_entropy_score = false)
    (hb64 : optionTruthy s.global_options.b64_entropy_score = false) :
    hex_entropy_limit s =
        ((s.global_options.entropy_sensitivity.getD 75 : ℚ)) / 100 * 4 ∧
    b64_entropy_limit s =
        ((s.global_options.entropy_sensitivity.getD 75 : ℚ)) / 100 * 6 ∧
    (s.global_options.entropy_sensitivity = none →
      hex_entropy_limit s = 3 ∧ b64_entropy_limit s = 9 / 2) := by
  have hscaled : ∀ r : ℚ, compute_scaled_entropy_limit s r =
      ((s.global_options.entropy_sensitivity.getD 75 : ℚ)) / 100 * r := by
    intro r
    unfold compute_scaled_entropy_limit
    cases s.global_options.entropy_sensitivity <;> simp [Option.getD]
  refine ⟨?_, ?_, ?_⟩
  · simp [hex_entropy_limit, hhex, hscaled]
  · simp [b64_entropy_limit, hb64, hscaled]
  · intro hnone
    constructor
    · simp [hex_entropy_limit, hhex, hscaled, hnone]
      norm_num
    · simp [b64_entropy_limit, hb64, hscaled, hnone]
      norm_num

/-- Witness for C5 at a scanner with every entropy option unset. -/
theorem entropy_limit_scaling_witness :
    hex_entropy_limit regexOnlyScanner =
        ((regexOnlyScanner.global_options.entropy_sensitivity.getD 75 : ℚ)) / 100 * 4 ∧
    b64_entropy_limit regexOnlyScanner =
        ((regexOnlyScanner.global_options.entropy_sensitivity.getD 75 : ℚ)) / 100 * 6 ∧
    (regexOnlyScanner.global_options.entropy_sensitivity = none →
      hex_entropy_limit regexOnlyScanner = 3 ∧ b64_entropy_limit regexOnlyScanner = 9 / 2) :=
  entropy_limit_scaling regexOnlyScanner (by decide) (by decide)

/-! ## C10: a deprecated absolute override of `0` is silently ignored -/

/-- Claim C10: when the deprecated absolute score of a family is configured as
`0`, the truthiness gate ignores it and the sensitivity-scaled limit is used
instead; under the default sensitivity the resulting hex limit is 3, not the
configured 0, so a zero override cannot be expressed. -/
theorem zero_entropy_override_ignored (s : Scanner)
    (hhex : s.global_options.hex_entropy_score = some 0)
    (hb64 : s.global_options.b64_entropy_score = some 0) :
    hex_entropy_limit s = compute_scaled_entropy_limit s 4 ∧
    b64_entropy_limit s = compute_scaled_entropy_limit s 6 ∧
    (s.global_options.entropy_sensitivity = none →
      hex_entropy_limit s = 3 ∧ hex_entropy_limit s ≠ 0) := by
  have h1 : hex_entropy_limit s = compute_scaled_entropy_limit s 4 := by
    simp [hex_entropy_limit, optionTruthy, hhex]
  have h2 : b64_entropy_limit s = compute_scaled_entropy_limit s 6 := by
    simp [b64_entropy_limit, optionTruthy, hb64]
  refine ⟨h1, h2, fun hnone => ⟨?_, ?_⟩⟩
  · rw [h1]
    unfold compute_scaled_entropy_limit
    rw [hnone]
    norm_num
  · rw [h1]
    unfold compute_scaled_entropy_limit
    rw [hnone]
    norm_num

/-- Witness for C10 at a scanner whose deprecated overrides are `0`. -/
theorem zero_entropy_override_ignored_witness :
    hex_entropy_limit zeroOverrideScanner = compute_scaled_entropy_limit zeroOverrideScanner 4 ∧
    b64_entropy_limit zeroOverrideScanner = compute_scaled_entropy_limit zeroOverrideScanner 6 ∧
    (zeroOverrideScanner.global_options.entropy_sensitivity = none →
      hex_entropy_limit zeroOverrideScanner = 3 ∧ hex_entropy_limit zeroOverrideScanner ≠ 0) :=
  zero_entropy_override_ignored zeroOverrideScanner rfl rfl

/-! ## C9: configuration errors at the start of a fresh scan -/

/-- Claim C9: a fresh scan (completed flag unset) raises a configuration error
— leaving the state untouched, producing no issues — when no detector is
requested, or when regex detection is requested with an empty compiled rule
set. -/
theorem scan_config_errors (s : Scanner) (chunks : List Chunk) (st : EngineState)
    (hfresh : st._completed = false) :
    ((s.global_options.entropy = false ∧ s.global_options.regex = false) →
      scan s chunks st = (Except.error ConfigError.noAnalysisRequested, st)) ∧
    ((s.global_options.regex = true ∧ s.rules_regexes = []) →
      scan s chunks st = (Except.error ConfigError.noRegexesFound, st)) := by
  constructor
  · rintro ⟨he, hr⟩
    unfold scan
    simp [hfresh, he, hr]
  · rintro ⟨hr, hrules⟩
    unfold scan
    simp [hfresh, hr, hrules]

/-- Witness for C9: both configuration errors at concrete scanners. -/
theorem scan_config_errors_witness :
    scan noDetectorScanner [sampleChunk] freshState =
        (Except.error ConfigError.noAnalysisRequested, freshState) ∧
    scan emptyRulesScanner [sampleChunk] freshState =
        (Except.error ConfigError.noRegexesFound, freshState) :=
  ⟨(scan_config_errors noDetectorScanner [sampleChunk] freshState rfl).1 ⟨rfl, rfl⟩,
   (scan_config_errors emptyRulesScanner [sampleChunk] freshState rfl).2 ⟨rfl, rfl⟩⟩

/-! ## C1: a completed scan replays its cached issues -/

/-- Claim C1: when a call to `scan` has run to completion and returned an
issue sequence, a second call returns exactly the same sequence and leaves the
state — including the number of producer reads — unchanged: the cached list is
replayed once the completed flag is true. -/
theorem scan_idempotent (s : Scanner) (chunks : List Chunk) (st : EngineState)
    (issues : List Issue) (h : (scan s chunks st).1 = Except.ok issues) :
    scan s chunks (scan s chunks st).2 = (Except.ok issues, (scan s chunks st).2) := by
  by_cases hc : st._completed
  · have hfix : scan s chunks st = (Except.ok st._issues, st) := by
      unfold scan
      simp [hc]
    rw [hfix] at h ⊢
    simp at h
    rw [hfix]
    simp [h]
  · simp only [Bool.not_eq_true] at hc
    by_cases h1 : !(s.global_options.entropy || s.global_options.regex)
    · exfalso
      unfold scan at h
      simp [hc, h1] at h
    · by_cases h2 : s.global_options.regex && s.rules_regexes.isEmpty
      · exfalso
        unfold scan at h
        simp [hc] at h
        rw [if_neg (by simp_all), if_pos h2] at h
        simp at h
      · have hfix : scan s chunks st =
            (Except.ok (chunks.flatMap (chunk_issues s)),
              { _issues := chunks.flatMap (chunk_issues s), _completed := true,
                producer_reads := st.producer_reads + 1 }) := by
          unfold scan
          rw [if_neg (by simp [hc]), if_neg (by simp_all), if_neg (by simp_all)]
        rw [hfix] at h ⊢
        simp at h
        unfold scan
        simp [h]

/-- Witness for C1: the second call on the regex-only scanner replays the
single cached issue and leaves the state unchanged. -/
theorem scan_idempotent_witness :
    scan regexOnlyScanner [sampleChunk] (scan regexOnlyScanner [sampleChunk] freshState).2 =
      (Except.ok [{ issue_type := IssueType.RegEx, matched_string := "AKIAABCD",
                    chunk := sampleChunk, issue_detail := some "aws_key" }],
       (scan regexOnlyScanner [sampleChunk] freshState).2) :=
  scan_idempotent regexOnlyScanner [sampleChunk] freshState _ rfl

/-! ## C3: the per-candidate entropy decision rule -/

/-- Claim C3: a candidate string yields an `Entropy` issue exactly when
neither its literal value nor its signature is excluded, its entropy score
strictly exceeds the limit, and no entropy-exclusion rule matches the
(string, line, path) triple; at most one issue is produced per evaluation. -/
theorem evaluate_entropy_string_spec (s : Scanner) (chunk : Chunk) (line string : String)
    (lim : ℝ) :
    (evaluate_entropy_string s chunk line string lim).length ≤ 1 ∧
    (evaluate_entropy_string s chunk line string lim =
        [{ issue_type := IssueType.Entropy, matched_string := string, chunk := chunk }] ↔
      (signature_is_excluded s string chunk.file_path = false ∧
       calculate_entropy string > lim ∧
       entropy_string_is_excluded s string line chunk.file_path = false)) ∧
    (evaluate_entropy_string s chunk line string lim = [] ∨
     evaluate_entropy_string s chunk line string lim =
        [{ issue_type := IssueType.Entropy, matched_string := string, chunk := chunk }]) := by
  unfold evaluate_entropy_string
  split_ifs with h1 h2 h3 <;> simp_all

/-- Witness for C3 at a concrete scanner, chunk, candidate and limit. -/
theorem evaluate_entropy_string_spec_witness :
    (evaluate_entropy_string regexOnlyScanner sampleChunk "token = ab" "ab" 0).length ≤ 1 ∧
    (evaluate_entropy_string regexOnlyScanner sampleChunk "token = ab" "ab" 0 =
        [{ issue_type := IssueType.Entropy, matched_string := "ab", chunk := sampleChunk }] ↔
      (signature_is_excluded regexOnlyScanner "ab" sampleChunk.file_path = false ∧
       calculate_entropy "ab" > 0 ∧
       entropy_string_is_excluded regexOnlyScanner "ab" "token = ab" sampleChunk.file_path
         = false)) ∧
    (evaluate_entropy_string regexOnlyScanner sampleChunk "token = ab" "ab" 0 = [] ∨
     evaluate_entropy_string regexOnlyScanner sampleChunk "token = ab" "ab" 0 =
        [{ issue_type := IssueType.Entropy, matched_string := "ab", chunk := sampleChunk }]) :=
  evaluate_entropy_string_spec regexOnlyScanner sampleChunk "token = ab" "ab" 0

/-! ## C4: Shannon entropy properties -/

/-- The counts of a list sum to its length over its finset of elements. -/
theorem sum_count_eq_length (l : List Char) :
    ∑ c in l.toFinset, (l.count c : ℝ) = (l.length : ℝ) := by
  have h : ∑ c in l.toFinset, l.count c = l.length := by
    simp
  rw [← h]
  push_cast
  rfl

/-- Entropy of a one-character alphabet is zero. -/
theorem entropy_of_replicate (n : Nat) (c : Char) :
    entropy_of (List.replicate n c) = 0 := by
  rcases Nat.eq_zero_or_pos n with hn | hn
  · subst hn
    simp [entropy_of]
  · have hne : List.replicate n c ≠ [] := by
      simp [List.replicate_eq_nil_iff ..]
      omega
    have hfin : (List.replicate n c).toFinset = {c} :=
      List.toFinset_replicate_of_ne_zero (by omega)
    have hcount : (List.replicate n c).count c = n := by
      simp
    unfold entropy_of
    rw [if_neg hne, hfin, Finset.sum_singleton, hcount]
    have hlen : ((List.replicate n c).length : ℝ) = (n : ℝ) := by simp
    rw [hlen]
    have hnn : (n : ℝ) ≠ 0 := by
      exact_mod_cast Nat.pos_iff_ne_zero.mp hn
    rw [div_self hnn]
    simp

/-- Entropy of a duplicate-free list equals `log2` of its length. -/
theorem entropy_of_nodup (l : List Char) (h : l.Nodup) :
    entropy_of l = Real.logb 2 l.length := by
  rcases eq_or_ne l [] with hl | hl
  · subst hl
    simp [entropy_of, Real.logb_zero]
  · have hlen : 0 < l.length := List.length_pos.mpr hl
    have hlenR : (0 : ℝ) < (l.length : ℝ) := by exact_mod_cast hlen
    have hcount : ∀ c ∈ l.toFinset, (l.count c : ℝ) = 1 := by
      intro c hc
      have := List.count_eq_one_of_mem h (List.mem_toFinset.mp hc)
      exact_mod_cast this
    unfold entropy_of
    rw [if_neg hl]
    have hterm : ∀ c ∈ l.toFinset,
        -((l.count c : ℝ) / (l.length : ℝ)) * Real.logb 2 ((l.count c : ℝ) / (l.length : ℝ))
          = ((l.length : ℝ))⁻¹ * Real.logb 2 (l.length : ℝ) := by
      intro c hc
      rw [hcount c hc, one_div, Real.logb_inv]
      ring
    rw [Finset.sum_congr rfl hterm, Finset.sum_const, List.toFinset_card_of_nodup h,
      nsmul_eq_mul]
    field_simp

/-- Jensen bound: the entropy of any list is at most `log2` of its length. -/
theorem entropy_of_le_logb_length (l : List Char) :
    entropy_of l ≤ Real.logb 2 l.length := by
  rcases eq_or_ne l [] with hl | hl
  · subst hl
    simp [entropy_of, Real.logb_zero]
  · have hlen : 0 < l.length := List.length_pos.mpr hl
    have hlenR : (0 : ℝ) < (l.length : ℝ) := by exact_mod_cast hlen
    set T := l.toFinset with hT
    set w : Char → ℝ := fun c => (l.count c : ℝ) / (l.length : ℝ) with hw
    have hw_pos : ∀ c ∈ T, 0 < w c := by
      intro c hc
      have hmem : c ∈ l := List.mem_toFinset.mp hc
      have : 0 < l.count c := List.count_pos_iff.mpr hmem
      exact div_pos (by exact_mod_cast this) hlenR
    have hw_nonneg : ∀ c ∈ T, 0 ≤ w c := fun c hc => le_of_lt (hw_pos c hc)
    have hw_sum : ∑ c in T, w c = 1 := by
      rw [hw]
      rw [← Finset.sum_div, sum_count_eq_length, div_self (ne_of_gt hlenR)]
    have hmem : ∀ c ∈ T, (w c)⁻¹ ∈ Set.Ioi (0 : ℝ) := by
      intro c hc
      exact Set.mem_Ioi.mpr (inv_pos.mpr (hw_pos c hc))
    have hjensen := strictConcaveOn_log_Ioi.concaveOn.le_map_sum hw_nonneg hw_sum hmem
    have hsum_inv : ∑ c in T, w c • (w c)⁻¹ = (T.card : ℝ) := by
      have : ∀ c ∈ T, w c • (w c)⁻¹ = (1 : ℝ) := by
        intro c hc
        rw [smul_eq_mul, mul_inv_cancel₀ (ne_of_gt (hw_pos c hc))]
      rw [Finset.sum_congr rfl this, Finset.sum_const, nsmul_eq_mul, mul_one]
    rw [hsum_inv] at hjensen
    have hentropy : entropy_of l =
        (∑ c in T, w c • Real.log (w c)⁻¹) / Real.log 2 := by
      unfold entropy_of
      rw [if_neg hl, Finset.sum_div]
      refine Finset.sum_congr rfl ?_
      intro c hc
      rw [smul_eq_mul, Real.log_inv, Real.logb]
      ring
    rw [hentropy]
    have hlog2 : (0 : ℝ) < Real.log 2 := Real.log_pos one_lt_two
    have hstep : (∑ c in T, w c • Real.log (w c)⁻¹) / Real.log 2 ≤
        Real.log (T.card : ℝ) / Real.log 2 :=
      (div_le_div_iff_of_pos_right hlog2).mpr hjensen
    refine le_trans hstep ?_
    have hcard_pos : 0 < T.card := by
      rw [hT]
      exact Finset.card_pos.mpr (by
        obtain ⟨c, hc⟩ := List.exists_mem_of_ne_nil l hl
        exact ⟨c, List.mem_toFinset.mpr hc⟩)
    have hcard_le : (T.card : ℝ) ≤ (l.length : ℝ) := by
      exact_mod_cast List.toFinset_card_le l
    have : Real.logb 2 (T.card : ℝ) ≤ Real.logb 2 (l.length : ℝ) :=
      (Real.logb_le_logb one_lt_two (by exact_mod_cast hcard_pos) hlenR).mpr hcard_le
    calc Real.log (T.card : ℝ) / Real.log 2 = Real.logb 2 (T.card : ℝ) := by
          rw [Real.logb]
      _ ≤ Real.logb 2 (l.length : ℝ) := this

/-- Claim C4: `calculate_entropy` is the Shannon entropy of the character
frequency distribution: the empty string scores 0, a string of one repeated
character scores 0, and among strings of a fixed length the score is maximal
when every character is distinct. -/
theorem calculate_entropy_spec :
    calculate_entropy "" = 0 ∧
    (∀ (n : Nat) (c : Char), calculate_entropy (String.mk (List.replicate n c)) = 0) ∧
    (∀ s t : String, s.length = t.length → t.data.Nodup →
      calculate_entropy s ≤ calculate_entropy t) := by
  refine ⟨by simp [calculate_entropy, entropy_of], ?_, ?_⟩
  · intro n c
    exact entropy_of_replicate n c
  · intro s t hlen hnodup
    have h1 : calculate_entropy s ≤ Real.logb 2 s.data.length :=
      entropy_of_le_logb_length s.data
    have h2 : calculate_entropy t = Real.logb 2 t.data.length :=
      entropy_of_nodup t.data hnodup
    have hl : s.data.length = t.data.length := hlen
    rw [h2, ← hl]
    exact h1

/-- Witness for C4: the empty string, a repeated-character string, and a
fixed-length comparison against a duplicate-free string. -/
theorem calculate_entropy_spec_witness :
    calculate_entropy "" = 0 ∧
    calculate_entropy (String.mk (List.replicate 3 'a')) = 0 ∧
    calculate_entropy "aa" ≤ calculate_entropy "ab" :=
  ⟨calculate_entropy_spec.1,
   calculate_entropy_spec.2.1 3 'a',
   calculate_entropy_spec.2.2 "aa" "ab" rfl (by decide)⟩

/-! ## C8: unified-diff header stripping -/

/-- The marker `"\n+++"` cannot begin at or spill over the junction of a
non-matching block and a following newline, because its last three characters
are `'+'`. -/
theorem diffMarker_not_prefixOf_append (l rest : List Char) (hl : l ≠ [])
    (h : diffMarker.isPrefixOf l = false) :
    diffMarker.isPrefixOf (l ++ '\n' :: rest) = false := by
  have hpn : (('+' : Char) == '\n') = false := by decide
  match l with
  | [] => exact absurd rfl hl
  | [c1] =>
    simp [diffMarker, List.isPrefixOf, hpn]
  | [c1, c2] =>
    simp [diffMarker, List.isPrefixOf, hpn]
  | [c1, c2, c3] =>
    simp [diffMarker, List.isPrefixOf, hpn]
  | c1 :: c2 :: c3 :: c4 :: t =>
    simp only [diffMarker, List.cons_append, List.isPrefixOf, List.isPrefixOf_nil_left,
      Bool.and_true] at h ⊢
    exact h

/-- The first occurrence of the marker in `pre ++ "\n+++" ++ tail` is at
`pre.length` when `pre` itself contains no occurrence. -/
theorem findFrom_diffMarker_append (pre tail : List Char)
    (h : findFrom diffMarker pre = none) :
    findFrom diffMarker (pre ++ '\n' :: '+' :: '+' :: '+' :: tail) = some pre.length := by
  induction pre with
  | nil =>
    simp [findFrom, diffMarker, List.isPrefixOf]
  | cons c pre ih =>
    have hp : diffMarker.isPrefixOf (c :: pre) = false := by
      by_cases hp' : diffMarker.isPrefixOf (c :: pre)
      · rw [findFrom, if_pos hp'] at h
        exact absurd h (by simp)
      · exact Bool.eq_false_iff.mpr hp'
    have hrec : findFrom diffMarker pre = none := by
      rw [findFrom, if_neg (by simp [hp])] at h
      exact Option.map_eq_none'.mp h
    have hjunction :=
      diffMarker_not_prefixOf_append (c :: pre) ('+' :: '+' :: '+' :: tail)
        (by simp) hp
    simp only [List.cons_append] at hjunction ⊢
    rw [findFrom, if_neg (by simp [hjunction]), ih hrec]
    simp

/-- The first newline in `mid ++ "\n" ++ rest` is at `mid.length` when `mid`
contains no newline. -/
theorem findFrom_newline_append (mid rest : List Char) (h : ∀ c ∈ mid, c ≠ '\n') :
    findFrom ('\n' :: []) (mid ++ '\n' :: rest) = some mid.length := by
  induction mid with
  | nil =>
    simp [findFrom, List.isPrefixOf]
  | cons c mid ih =>
    have hc : c ≠ '\n' := h c (by simp)
    have hrec := ih fun d hd => h d (by simp [hd])
    have hpf : (('\n' :: []) : List Char).isPrefixOf (c :: (mid ++ '\n' :: rest)) = false := by
      simp [List.isPrefixOf]
      exact fun hcon => hc hcon.symm
    simp only [List.cons_append]
    rw [findFrom, if_neg (by simp [hpf]), hrec]
    simp

/-- A diff with no `"\n+++"` marker is entirely header: `header_length` is
the whole text and stripping leaves the empty string. -/
theorem header_length_no_marker (d : String) (h : findFrom diffMarker d.data = none) :
    header_length d = d.length ∧ strDrop d (header_length d) = "" := by
  have h1 : header_length d = d.length := by
    unfold header_length
    rw [h]
    rfl
  refine ⟨h1, ?_⟩
  rw [h1]
  unfold strDrop
  have : d.data.drop d.length = [] := List.drop_length d.data
  rw [this]

/-- Stripping a diff of the form `pre ++ "\n+++" ++ mid ++ "\n" ++ rest`
(first marker inside `"\n+++"`, no newline in `mid`) removes everything up to
and including the newline that ends the `"+++"` line, leaving `rest`. -/
theorem header_length_append (pre mid rest : String)
    (hpre : findFrom diffMarker pre.data = none)
    (hmid : ∀ c ∈ mid.data, c ≠ '\n') :
    header_length (pre ++ "\n+++" ++ mid ++ "\n" ++ rest)
        = pre.length + 4 + mid.length + 1 ∧
    strDrop (pre ++ "\n+++" ++ mid ++ "\n" ++ rest)
        (header_length (pre ++ "\n+++" ++ mid ++ "\n" ++ rest)) = rest := by
  have hm : ("\n+++" : String).data = '\n' :: '+' :: '+' :: '+' :: [] := rfl
  have hn : ("\n" : String).data = '\n' :: [] := rfl
  have hdata : (pre ++ "\n+++" ++ mid ++ "\n" ++ rest).data
      = pre.data ++ '\n' :: '+' :: '+' :: '+' :: (mid.data ++ '\n' :: rest.data) := by
    simp [String.data_append, hm, hn]
  have hfind : findFrom diffMarker (pre ++ "\n+++" ++ mid ++ "\n" ++ rest).data
      = some pre.data.length := by
    rw [hdata]
    exact findFrom_diffMarker_append pre.data (mid.data ++ '\n' :: rest.data) hpre
  have hA : (pre ++ "\n+++" ++ mid ++ "\n" ++ rest).data
      = (pre.data ++ '\n' :: '+' :: '+' :: '+' :: []) ++ (mid.data ++ '\n' :: rest.data) := by
    rw [hdata]
    simp only [List.append_assoc, List.cons_append, List.nil_append]
  have hlenA : (pre.data ++ '\n' :: '+' :: '+' :: '+' :: []).length = pre.data.length + 4 := by
    simp
  have hdrop : (pre ++ "\n+++" ++ mid ++ "\n" ++ rest).data.drop (pre.data.length + 4)
      = mid.data ++ '\n' :: rest.data := by
    rw [hA, ← hlenA]
    exact List.drop_left _ _
  have hfind2 := findFrom_newline_append mid.data rest.data hmid
  have hheader : header_length (pre ++ "\n+++" ++ mid ++ "\n" ++ rest)
      = pre.length + 4 + mid.length + 1 := by
    unfold header_length
    simp only [hfind, hdrop, hfind2]
    rfl
  refine ⟨hheader, ?_⟩
  rw [hheader]
  unfold strDrop
  have hB : (pre ++ "\n+++" ++ mid ++ "\n" ++ rest).data
      = (pre.data ++ '\n' :: '+' :: '+' :: '+' :: (mid.data ++ '\n' :: [])) ++ rest.data := by
    rw [hdata]
    simp only [List.append_assoc, List.cons_append, List.nil_append]
  have hlenB : (pre.data ++ '\n' :: '+' :: '+' :: '+' :: (mid.data ++ '\n' :: [])).length
      = pre.length + 4 + mid.length + 1 := by
    show _ = pre.data.length + 4 + mid.data.length + 1
    simp [List.length_append]
    omega
  apply String.ext
  rw [hB, ← hlenB, List.drop_left]

/-- Claim C8 (amended): with filename scanning disabled, the unified-diff
header — everything up to and including the newline ending the first line
that begins with `"+++"` — is stripped from the patch text; a diff containing
no such marker is stripped to the empty string, but the per-file extraction
still yields it as an empty-text entry rather than discarding it. -/
theorem header_stripping_spec :
    (∀ pre mid rest : String, findFrom diffMarker pre.data = none →
        (∀ c ∈ mid.data, c ≠ '\n') →
        strDrop (pre ++ "\n+++" ++ mid ++ "\n" ++ rest)
            (header_length (pre ++ "\n+++" ++ mid ++ "\n" ++ rest)) = rest) ∧
    (∀ d : String, findFrom diffMarker d.data = none →
        header_length d = d.length ∧ strDrop d (header_length d) = "") ∧
    (∀ (s : Scanner) (patch : Patch),
        s.global_options.scan_filenames = false →
        patch.delta.is_binary = false →
        patch.delta.is_deleted = false →
        patch.delta.new_file.path ≠ "" →
        should_scan s patch.delta.new_file.path = true →
        findFrom diffMarker patch.text.data = none →
        iter_diff_index s [patch] = [("", patch.delta.new_file.path)]) := by
  refine ⟨fun pre mid rest hpre hmid => (header_length_append pre mid rest hpre hmid).2,
    fun d h => header_length_no_marker d h, ?_⟩
  intro s patch hsf hbin hdel hpath hscan hmarker
  have hpath' : (patch.delta.new_file.path != "") = true := by
    simpa using hpath
  have hstrip := (header_length_no_marker patch.text hmarker).2
  unfold strDrop at hstrip
  simp only [iter_diff_index, List.flatMap_cons, List.flatMap_nil, List.append_nil,
    hpath', hbin, hdel, hsf, Bool.not_false, Bool.false_eq_true, if_true, if_false,
    ite_true, ite_false, hscan, strDrop, hstrip]

/-- Witness for C8 at a concrete realistic diff and a concrete pure-header
patch. -/
theorem header_stripping_spec_witness :
    strDrop ("diff --git a/f b/f\n--- a/f" ++ "\n+++" ++ " b/f" ++ "\n" ++ "@@ -1 +1 @@")
        (header_length
          ("diff --git a/f b/f\n--- a/f" ++ "\n+++" ++ " b/f" ++ "\n" ++ "@@ -1 +1 @@"))
      = "@@ -1 +1 @@" ∧
    header_length "similarity index 100%" = ("similarity index 100%" : String).length ∧
    iter_diff_index regexOnlyScanner [pureHeaderPatch] = [("", "a.txt")] :=
  ⟨header_stripping_spec.1 "diff --git a/f b/f\n--- a/f" " b/f" "@@ -1 +1 @@"
      (by decide) (by decide),
   (header_stripping_spec.2.1 "similarity index 100%" (by decide)).1,
   header_stripping_spec.2.2 regexOnlyScanner pureHeaderPatch rfl rfl rfl
      (by decide) rfl (by decide)⟩

/-- Counterexample to C8 as stated: a pure-header diff (no `"+++"` marker) is
not discarded — the per-file extraction still yields an (empty-text) entry
for it, so a chunk does reach the detectors. -/
theorem pure_header_diff_still_yielded :
    iter_diff_index regexOnlyScanner [pureHeaderPatch] = [("", "a.txt")] ∧
    iter_diff_index regexOnlyScanner [pureHeaderPatch] ≠ [] := by
  refine ⟨?_, ?_⟩ <;> decide

/-! ## C6/C7: the git-history chunk producer -/

/-- Unfolding equation for `dedupProcess` on a cons cell. -/
theorem dedupProcess_cons (dg : String → String) (pr : String × String)
    (rest : List (String × String)) (seen : List String) :
    dedupProcess dg (pr :: rest) seen =
      if seen.contains (dgOf dg pr) then dedupProcess dg rest seen
      else pr :: dedupProcess dg rest (dgOf dg pr :: seen) :=
  rfl

/-- `stepCommit` skips a commit without an available parent. -/
theorem stepCommit_none (s : Scanner) (repo : GitRepo) (dg : String → String)
    (bn : String) (st : WalkState) (curr : Commit)
    (h : curr.first_parent = none) :
    stepCommit s repo dg bn st curr = st := by
  unfold stepCommit
  rw [h]

/-- `stepCommit` on a commit with an available parent: skip when the digest
was already searched, otherwise record it and yield the diff's chunks. -/
theorem stepCommit_some (s : Scanner) (repo : GitRepo) (dg : String → String)
    (bn : String) (st : WalkState) (curr : Commit) (prev : String)
    (h : curr.first_parent = some prev) :
    stepCommit s repo dg bn st curr =
      if st.already_searched.contains (dgOf dg (prev, curr.id)) then st
      else
        { already_searched := dgOf dg (prev, curr.id) :: st.already_searched
          chunks := st.chunks ++ (iter_diff_index s (repo.diff prev curr.id)).map fun bf =>
            { contents := bf.1, file_path := bf.2
              metadata := extract_commit_metadata curr bn }
          processed := st.processed ++ [(prev, curr.id)] } := by
  unfold stepCommit
  rw [h]

/-- `commitPairs` drops a commit without an available parent. -/
theorem commitPairs_cons_none (c : Commit) (rest : List Commit)
    (h : c.first_parent = none) :
    commitPairs (c :: rest) = commitPairs rest := by
  simp [commitPairs, h]

/-- `commitPairs` records the (parent, commit) pair of a commit with an
available parent. -/
theorem commitPairs_cons_some (c : Commit) (rest : List Commit) (p : String)
    (h : c.first_parent = some p) :
    commitPairs (c :: rest) = (p, c.id) :: commitPairs rest := by
  simp [commitPairs, h]

/-- The per-commit loop computes exactly the reference deduplication over the
branch's encountered pairs, and maintains the already-searched digests as the
(reversed) digests of the processed pairs. -/
theorem foldl_stepCommit_spec (s : Scanner) (repo : GitRepo) (dg : String → String)
    (bn : String) :
    ∀ (commits : List Commit) (st : WalkState),
      (commits.foldl (stepCommit s repo dg bn) st).processed
          = st.processed ++ dedupProcess dg (commitPairs commits) st.already_searched ∧
      (commits.foldl (stepCommit s repo dg bn) st).already_searched
          = ((dedupProcess dg (commitPairs commits) st.already_searched).map (dgOf dg)).reverse
              ++ st.already_searched := by
  intro commits
  induction commits with
  | nil =>
    intro st
    simp [commitPairs, dedupProcess]
  | cons c rest ih =>
    intro st
    rw [List.foldl_cons]
    cases hparent : c.first_parent with
    | none =>
      rw [stepCommit_none s repo dg bn st c hparent, commitPairs_cons_none c rest hparent]
      exact ih st
    | some p =>
      rw [commitPairs_cons_some c rest p hparent]
      by_cases hseen : st.already_searched.contains (dgOf dg (p, c.id))
      · rw [stepCommit_some s repo dg bn st c p hparent, if_pos hseen,
          dedupProcess_cons, if_pos hseen]
        exact ih st
      · rw [stepCommit_some s repo dg bn st c p hparent, if_neg hseen,
          dedupProcess_cons, if_neg hseen]
        obtain ⟨ih1, ih2⟩ := ih
          { already_searched := dgOf dg (p, c.id) :: st.already_searched
            chunks := st.chunks ++ (iter_diff_index s (repo.diff p c.id)).map fun bf =>
              { contents := bf.1, file_path := bf.2
                metadata := extract_commit_metadata c bn }
            processed := st.processed ++ [(p, c.id)] }
        constructor
        · rw [ih1]
          simp [List.append_assoc]
        · rw [ih2]
          simp [List.append_assoc]

/-- `processBranch` leaves `processed` and `already_searched` exactly as the
per-commit loop does (the trailing tree yield only appends chunks). -/
theorem processBranch_spec (s : Scanner) (repo : GitRepo) (dg : String → String)
    (st : WalkState) (br : GitBranch) :
    (processBranch s repo dg st br).processed
        = st.processed ++ dedupProcess dg (branchPairs br) st.already_searched ∧
    (processBranch s repo dg st br).already_searched
        = ((dedupProcess dg (branchPairs br) st.already_searched).map (dgOf dg)).reverse
            ++ st.already_searched := by
  obtain ⟨h1, h2⟩ := foldl_stepCommit_spec s repo dg br.name br.commits st
  unfold processBranch branchPairs
  cases hl : br.commits.getLast? with
  | none => exact ⟨h1, h2⟩
  | some c => exact ⟨h1, h2⟩

/-- Splitting the reference deduplication across an append of event lists. -/
theorem dedupProcess_append (dg : String → String) :
    ∀ (l₁ l₂ : List (String × String)) (seen : List String),
      dedupProcess dg (l₁ ++ l₂) seen =
        dedupProcess dg l₁ seen ++
          dedupProcess dg l₂
            (((dedupProcess dg l₁ seen).map (dgOf dg)).reverse ++ seen) := by
  intro l₁
  induction l₁ with
  | nil =>
    intro l₂ seen
    simp [dedupProcess]
  | cons pr rest ih =>
    intro l₂ seen
    by_cases hseen : seen.contains (dgOf dg pr)
    · rw [List.cons_append, dedupProcess_cons, if_pos hseen, dedupProcess_cons,
        if_pos hseen, ih]
    · rw [List.cons_append, dedupProcess_cons, if_neg hseen, dedupProcess_cons,
        if_neg hseen, ih]
      simp [List.append_assoc]

/-- Over all branches, the producer's processed pairs are the reference
deduplication of all encountered pairs, with the digest record threaded. -/
theorem foldl_processBranch_spec (s : Scanner) (repo : GitRepo) (dg : String → String) :
    ∀ (branches : List GitBranch) (st : WalkState),
      (branches.foldl (processBranch s repo dg) st).processed
          = st.processed
              ++ dedupProcess dg (branches.flatMap branchPairs) st.already_searched ∧
      (branches.foldl (processBranch s repo dg) st).already_searched
          = ((dedupProcess dg (branches.flatMap branchPairs) st.already_searched).map
              (dgOf dg)).reverse ++ st.already_searched := by
  intro branches
  induction branches with
  | nil =>
    intro st
    simp [dedupProcess]
  | cons br rest ih =>
    intro st
    rw [List.foldl_cons, List.flatMap_cons]
    obtain ⟨hp, ha⟩ := processBranch_spec s repo dg st br
    obtain ⟨ih1, ih2⟩ := ih (processBranch s repo dg st br)
    rw [dedupProcess_append]
    constructor
    · rw [ih1, hp, ha]
      simp [List.append_assoc]
    · rw [ih2, ha]
      simp [List.map_append, List.reverse_append, List.append_assoc]

/-- The producer's processed pairs are exactly the reference deduplication of
the encountered pairs starting from an empty digest record. -/
theorem processedPairs_eq_dedupProcess (s : Scanner) (repo : GitRepo)
    (dg : String → String) :
    processedPairs s repo dg = dedupProcess dg (encounteredPairs repo) [] := by
  obtain ⟨h1, _⟩ := foldl_processBranch_spec s repo dg repo.branches
    { already_searched := [], chunks := [], processed := [] }
  unfold processedPairs gitWalk encounteredPairs
  simpa using h1

/-- The digests of the deduplicated output are distinct and disjoint from the
initial record. -/
theorem dedupProcess_digests_nodup (dg : String → String) :
    ∀ (l : List (String × String)) (seen : List String),
      ((dedupProcess dg l seen).map (dgOf dg)).Nodup ∧
      ∀ h ∈ (dedupProcess dg l seen).map (dgOf dg), seen.contains h = false := by
  intro l
  induction l with
  | nil =>
    intro seen
    simp [dedupProcess]
  | cons pr rest ih =>
    intro seen
    by_cases hseen : seen.contains (dgOf dg pr)
    · rw [dedupProcess_cons, if_pos hseen]
      exact ih seen
    · rw [dedupProcess_cons, if_neg hseen]
      obtain ⟨ihn, ihs⟩ := ih (dgOf dg pr :: seen)
      constructor
      · rw [List.map_cons]
        refine List.nodup_cons.mpr ⟨?_, ihn⟩
        intro hmem
        have hfalse := ihs (dgOf dg pr) hmem
        simp [List.contains_cons] at hfalse
      · intro h hmem
        rw [List.map_cons] at hmem
        rcases List.mem_cons.mp hmem with heq | hmem'
        · subst heq
          exact Bool.eq_false_iff.mpr hseen
        · have hfalse := ihs h hmem'
          simp only [List.contains_cons, Bool.or_eq_false_iff] at hfalse
          exact hfalse.2

/-- Every pair kept by the reference deduplication comes from the event
list. -/
theorem dedupProcess_subset_events (dg : String → String) :
    ∀ (l : List (String × String)) (seen : List String) (pr : String × String),
      pr ∈ dedupProcess dg l seen → pr ∈ l := by
  intro l
  induction l with
  | nil =>
    intro seen pr h
    simp [dedupProcess] at h
  | cons q rest ih =>
    intro seen pr h
    by_cases hseen : seen.contains (dgOf dg q)
    · rw [dedupProcess_cons, if_pos hseen] at h
      exact List.mem_cons_of_mem q (ih _ pr h)
    · rw [dedupProcess_cons, if_neg hseen] at h
      rcases List.mem_cons.mp h with heq | h'
      · exact heq ▸ List.mem_cons_self q rest
      · exact List.mem_cons_of_mem q (ih _ pr h')

/-- When the digest is collision-free on the event list, every encountered
pair is kept (unless its digest was already recorded). -/
theorem dedupProcess_complete (dg : String → String) :
    ∀ (l : List (String × String)) (seen : List String),
      (∀ p₁ ∈ l, ∀ p₂ ∈ l, dgOf dg p₁ = dgOf dg p₂ → p₁ = p₂) →
      ∀ pr ∈ l, pr ∈ dedupProcess dg l seen ∨ seen.contains (dgOf dg pr) = true := by
  intro l
  induction l with
  | nil =>
    intro seen _ pr hpr
    simp at hpr
  | cons q rest ih =>
    intro seen hinj pr hpr
    have hinj' : ∀ p₁ ∈ rest, ∀ p₂ ∈ rest, dgOf dg p₁ = dgOf dg p₂ → p₁ = p₂ :=
      fun p₁ h₁ p₂ h₂ =>
        hinj p₁ (List.mem_cons_of_mem q h₁) p₂ (List.mem_cons_of_mem q h₂)
    by_cases hq : seen.contains (dgOf dg q)
    · rw [dedupProcess_cons, if_pos hq]
      rcases List.mem_cons.mp hpr with heq | hpr'
      · right
        rw [heq]
        exact hq
      · exact ih seen hinj' pr hpr'
    · rw [dedupProcess_cons, if_neg hq]
      rcases List.mem_cons.mp hpr with heq | hpr'
      · left
        rw [heq]
        exact List.mem_cons_self q _
      · rcases ih (dgOf dg q :: seen) hinj' pr hpr' with h | h
        · exact Or.inl (List.mem_cons_of_mem q h)
        · simp only [List.contains_cons, Bool.or_eq_true, beq_iff_eq] at h
          rcases h with heq2 | hseen2
          · left
            have hqpr : q = pr :=
              hinj q (List.mem_cons_self q rest) pr hpr heq2.symm
            rw [← hqpr]
            exact List.mem_cons_self q _
          · exact Or.inr hseen2

/-- Claim C6: across all scanned branches combined, each ordered
(parent id, commit id) pair passes deduplication at most once — the processed
pair list is duplicate-free — and, provided the digest is collision-free on
the encountered pairs, a pair is processed iff it is encountered at all, so a
diff reachable from several branches is scanned exactly once. -/
theorem git_diff_dedup (s : Scanner) (repo : GitRepo) (digest : String → String)
    (pr : String × String)
    (hinj : ∀ p₁ ∈ encounteredPairs repo, ∀ p₂ ∈ encounteredPairs repo,
      dgOf digest p₁ = dgOf digest p₂ → p₁ = p₂) :
    (processedPairs s repo digest).Nodup ∧
    (pr ∈ processedPairs s repo digest ↔ pr ∈ encounteredPairs repo) := by
  rw [processedPairs_eq_dedupProcess]
  refine ⟨List.Nodup.of_map (dgOf digest)
    (dedupProcess_digests_nodup digest (encounteredPairs repo) []).1, ?_, ?_⟩
  · exact fun h => dedupProcess_subset_events digest (encounteredPairs repo) [] pr h
  · intro h
    rcases dedupProcess_complete digest (encounteredPairs repo) [] hinj pr h with h' | h'
    · exact h'
    · simp at h'

/-- Witness for C6: a diff shared by two branches is processed exactly once. -/
theorem git_diff_dedup_witness :
    (processedPairs regexOnlyScanner dedupRepo (fun x => x)).Nodup ∧
    (("aa", "bb") ∈ processedPairs regexOnlyScanner dedupRepo (fun x => x) ↔
      ("aa", "bb") ∈ encounteredPairs dedupRepo) :=
  git_diff_dedup regexOnlyScanner dedupRepo (fun x => x) ("aa", "bb") (by decide)

/-- One `stepCommit` only appends chunks. -/
theorem stepCommit_chunks_prefix (s : Scanner) (repo : GitRepo) (dg : String → String)
    (bn : String) (st : WalkState) (c : Commit) :
    ∃ t, (stepCommit s repo dg bn st c).chunks = st.chunks ++ t := by
  cases hp : c.first_parent with
  | none =>
    rw [stepCommit_none s repo dg bn st c hp]
    exact ⟨[], by simp⟩
  | some p =>
    rw [stepCommit_some s repo dg bn st c p hp]
    by_cases hseen : st.already_searched.contains (dgOf dg (p, c.id))
    · rw [if_pos hseen]
      exact ⟨[], by simp⟩
    · rw [if_neg hseen]
      exact ⟨_, rfl⟩

/-- The per-commit loop only appends chunks. -/
theorem foldl_stepCommit_chunks_prefix (s : Scanner) (repo : GitRepo)
    (dg : String → String) (bn : String) :
    ∀ (commits : List Commit) (st : WalkState),
      ∃ t, (commits.foldl (stepCommit s repo dg bn) st).chunks = st.chunks ++ t := by
  intro commits
  induction commits with
  | nil =>
    intro st
    exact ⟨[], by simp⟩
  | cons c rest ih =>
    intro st
    rw [List.foldl_cons]
    obtain ⟨t₁, ht₁⟩ := stepCommit_chunks_prefix s repo dg bn st c
    obtain ⟨t₂, ht₂⟩ := ih (stepCommit s repo dg bn st c)
    exact ⟨t₁ ++ t₂, by rw [ht₂, ht₁, List.append_assoc]⟩

/-- A branch whose walk ends at `c` contributes the tree chunks of `c` right
after its loop chunks. -/
theorem processBranch_chunks (s : Scanner) (repo : GitRepo) (dg : String → String)
    (st : WalkState) (br : GitBranch) (c : Commit)
    (hlast : br.commits.getLast? = some c) :
    ∃ t, (processBranch s repo dg st br).chunks
        = st.chunks ++ t ++ (iter_diff_index s (repo.tree_diff c.id)).map fun bf =>
            ({ contents := bf.1, file_path := bf.2
               metadata := extract_commit_metadata c br.name } : Chunk) := by
  obtain ⟨t, ht⟩ :=
    foldl_stepCommit_chunks_prefix s repo dg br.name br.commits st
  refine ⟨t, ?_⟩
  unfold processBranch
  rw [hlast]
  simp [ht]

/-- Any branch iteration only appends chunks. -/
theorem processBranch_chunks_prefix (s : Scanner) (repo : GitRepo)
    (dg : String → String) (st : WalkState) (br : GitBranch) :
    ∃ t, (processBranch s repo dg st br).chunks = st.chunks ++ t := by
  obtain ⟨t, ht⟩ :=
    foldl_stepCommit_chunks_prefix s repo dg br.name br.commits st
  unfold processBranch
  cases hl : br.commits.getLast? with
  | none => exact ⟨t, ht⟩
  | some c =>
    refine ⟨t ++ (iter_diff_index s (repo.tree_diff c.id)).map fun bf =>
      ({ contents := bf.1, file_path := bf.2
         metadata := extract_commit_metadata c br.name } : Chunk), ?_⟩
    simp [ht, List.append_assoc]

/-- The whole branch fold only appends chunks. -/
theorem foldl_processBranch_chunks_prefix (s : Scanner) (repo : GitRepo)
    (dg : String → String) :
    ∀ (branches : List GitBranch) (st : WalkState),
      ∃ t, (branches.foldl (processBranch s repo dg) st).chunks = st.chunks ++ t := by
  intro branches
  induction branches with
  | nil =>
    intro st
    exact ⟨[], by simp⟩
  | cons br rest ih =>
    intro st
    rw [List.foldl_cons]
    obtain ⟨t₁, ht₁⟩ := processBranch_chunks_prefix s repo dg st br
    obtain ⟨t₂, ht₂⟩ := ih (processBranch s repo dg st br)
    exact ⟨t₁ ++ t₂, by rw [ht₂, ht₁, List.append_assoc]⟩

/-- Claim C7 (amended): for every scanned branch with a non-empty walk, the
terminal (last-walked) commit additionally contributes the chunks of a diff
between the empty tree and its tree, so root content is scanned even without a
parent diff; this trailing tree yield is not deduplicated, so it occurs once
per branch (see the counterexample for a shared root scanned twice). -/
theorem root_tree_chunks_per_branch (s : Scanner) (repo : GitRepo)
    (dg : String → String) (br : GitBranch) (c : Commit) (blob fp : String)
    (hbr : br ∈ repo.branches)
    (hlast : br.commits.getLast? = some c)
    (hmem : (blob, fp) ∈ iter_diff_index s (repo.tree_diff c.id)) :
    ({ contents := blob, file_path := fp
       metadata := extract_commit_metadata c br.name } : Chunk)
      ∈ gitChunks s repo dg := by
  obtain ⟨l₁, l₂, hsplit⟩ := List.append_of_mem hbr
  unfold gitChunks gitWalk
  rw [hsplit, List.foldl_append, List.foldl_cons]
  obtain ⟨t₂, ht₂⟩ := foldl_processBranch_chunks_prefix s repo dg l₂
    (processBranch s repo dg
      (l₁.foldl (processBranch s repo dg)
        { already_searched := [], chunks := [], processed := [] }) br)
  rw [ht₂]
  obtain ⟨t, ht⟩ := processBranch_chunks s repo dg
    (l₁.foldl (processBranch s repo dg)
      { already_searched := [], chunks := [], processed := [] }) br c hlast
  rw [ht]
  refine List.mem_append.mpr (Or.inl (List.mem_append.mpr (Or.inr ?_)))
  exact List.mem_map.mpr ⟨(blob, fp), hmem, rfl⟩

/-- Witness for C7 at a concrete single-branch repository. -/
theorem root_tree_chunks_per_branch_witness :
    ({ contents := "secret stuff", file_path := "f"
       metadata := extract_commit_metadata rootCommit "main" } : Chunk)
      ∈ gitChunks treeScanner rootRepo (fun x => x) :=
  root_tree_chunks_per_branch treeScanner rootRepo (fun x => x)
    { name := "main", commits := [rootCommit] } rootCommit "secret stuff" "f"
    (by decide) rfl (by decide)

/-- Counterexample to C7 as stated: two branches sharing the same root commit
each yield the root's full tree content, so it is scanned twice, not once. -/
theorem shared_root_tree_scanned_twice :
    ((gitChunks treeScanner sharedRootRepo (fun x => x)).filter
        (fun ch => ch.contents == "secret stuff")).length = 2 := by
  decide

end Tartufo
